import Mathlib

/-!
Shallow embedding of the DOJ listing scraper (repository `Havfar/doj`).

The consolidated crawl-and-checkpoint engine lives in
`src/tests/test-doj.spec.ts`; the tab-pool variant with the page-1 URL
special case lives in `src/tests/doj-pdf-scraper.spec.ts`.  Pure logic
(retry ladder, batch aggregation, counters, resume rule, link-file
serialisation) is translated here definition by definition.  The injected
platform capabilities (HTTP transport, the `new URL` resolver) appear as
function parameters; timing (sleeps/backoff delays) is outside the model.
-/

namespace DojScraper

/-! ### Configuration constants (test-doj.spec.ts, lines 6-15, 215) -/

def BASE_URL : String := "https://www.justice.gov/epstein/doj-disclosures/data-set-9-files"

def MAX_PAGE : Int := 1000000003

def EMPTY_PAGES_BEFORE_STOP : Nat := 30

def MAX_RETRIES : Nat := 5

def MAX_BLOCKED_BEFORE_STOP : Nat := 3

/-- The repository pins `const CONCURRENCY = 1`; the batch width is kept as a
parameter `w` of the scheduler definitions below, with this value as the
repository's configured instance. -/
def CONCURRENCY : Nat := 1

/-! ### String helpers: JS `String.prototype.includes` over character lists -/

/-- `hasPrefixList pat l` holds when `l` starts with `pat` (character-exact). -/
def hasPrefixList : List Char → List Char → Bool
  | [], _ => true
  | _ :: _, [] => false
  | p :: ps, c :: cs => p == c && hasPrefixList ps cs

/-- Substring occurrence test over character lists. -/
def hasSubList (pat : List Char) : List Char → Bool
  | [] => pat.isEmpty
  | c :: cs => hasPrefixList pat (c :: cs) || hasSubList pat cs

/-- JS `s.includes(pat)`. -/
def includesStr (s pat : String) : Bool := hasSubList pat.toList s.toList

/-! ### Block detection (test-doj.spec.ts, lines 90-97) -/

def isBlockedResponse (html : String) : Bool :=
  includesStr html "Access Denied" ||
    includesStr html "don\x27t have permission" ||
    includesStr html "Reference #" ||
    includesStr html "errors.edgesuite.net"

/-! ### Fetch results and the retry ladder (test-doj.spec.ts, lines 84-146) -/

inductive FetchResult where
  | ok (html : String)
  | blocked
  | error
  | empty
deriving DecidableEq, Repr

/-- One attempt as seen by `fetchWithRetry`: either a response with an HTTP
status and a body, or a thrown transport exception. -/
inductive AttemptOutcome where
  | response (status : Nat) (body : String)
  | exception
deriving DecidableEq, Repr

/-- Playwright `response.ok()`: status in 200-299. -/
def respOk (status : Nat) : Bool := 200 ≤ status && status ≤ 299

/-- Statuses retried with exponential backoff (line 125). -/
def retryableStatus (status : Nat) : Bool := status == 403 || status == 429 || 500 ≤ status

/-- What one attempt of the loop body does when retry budget remains:
`none` means "sleep and retry", `some r` means "return `r` now".
Branch order follows lines 110-142: blocked check first, then `ok()`,
then the retryable statuses, then the fall-through error return;
a thrown exception is retried. -/
def stepResult : AttemptOutcome → Option FetchResult
  | .exception => none
  | .response status body =>
    if isBlockedResponse body then none
    else if respOk status then some (.ok body)
    else if retryableStatus status then none
    else some .error

/-- What the loop body returns on the last attempt (`attempt = retries`),
when every `continue` branch is disabled: blocked bodies yield `blocked`
(line 117), OK responses yield `ok` (line 121), everything else — including
exhausted retryable statuses and exceptions — yields `error`. -/
def finalResult : AttemptOutcome → FetchResult
  | .exception => .error
  | .response status body =>
    if isBlockedResponse body then .blocked
    else if respOk status then .ok body
    else .error

/-- The retry loop of `fetchWithRetry`, from attempt index `attempt` with
`budgetLeft = retries - attempt` retries still allowed.  The second
component of the value counts the attempts performed (last index + 1). -/
def fetchAttempts (responses : Nat → AttemptOutcome) (attempt : Nat) :
    Nat → FetchResult × Nat
  | 0 => (finalResult (responses attempt), attempt + 1)
  | b + 1 =>
    match stepResult (responses attempt) with
    | some r => (r, attempt + 1)
    | none => fetchAttempts responses (attempt + 1) b

/-- `fetchWithRetry` over a sequence of per-attempt outcomes; returns the
classification and the number of attempts performed. -/
def fetchWithRetry (responses : Nat → AttemptOutcome) (retries : Nat) :
    FetchResult × Nat :=
  fetchAttempts responses 0 retries

lemma fetchAttempts_attempts_le (responses : Nat → AttemptOutcome) :
    ∀ b a, (fetchAttempts responses a b).2 ≤ a + b + 1 := by
  intro b
  induction b with
  | zero => intro a; simp [fetchAttempts]
  | succ b ih =>
    intro a
    simp only [fetchAttempts]
    cases h : stepResult (responses a) with
    | some r =>
      show a + 1 ≤ a + (b + 1) + 1
      omega
    | none => exact le_trans (ih (a + 1)) (by omega)

lemma fetchAttempts_run (responses : Nat → AttemptOutcome) :
    ∀ b a, (∀ i, a ≤ i → i < a + b → stepResult (responses i) = none) →
      fetchAttempts responses a b = (finalResult (responses (a + b)), a + b + 1) := by
  intro b
  induction b with
  | zero => intro a _; simp [fetchAttempts]
  | succ b ih =>
    intro a h
    have h0 : stepResult (responses a) = none := h a le_rfl (by omega)
    simp only [fetchAttempts, h0]
    rw [ih (a + 1) (fun i h1 h2 => h i (by omega) (by omega))]
    have e : a + 1 + b = a + (b + 1) := by omega
    rw [e]

lemma stepResult_ok_finalResult {o : AttemptOutcome} {html : String}
    (h : stepResult o = some (FetchResult.ok html)) : finalResult o = .ok html := by
  cases o with
  | exception => simp [stepResult] at h
  | response status body =>
    simp only [stepResult] at h
    by_cases hb : isBlockedResponse body = true
    · simp [hb] at h
    · by_cases hok : respOk status = true
      · simp [hb, hok] at h
        subst h
        simp [finalResult, hb, hok]
      · by_cases hr : retryableStatus status = true
        · simp [hb, hok, hr] at h
        · simp [hb, hok, hr] at h

lemma fetchAttempts_ok (responses : Nat → AttemptOutcome) :
    ∀ k b a html, k ≤ b → (∀ i, a ≤ i → i < a + k → stepResult (responses i) = none) →
      stepResult (responses (a + k)) = some (FetchResult.ok html) →
      fetchAttempts responses a b = (.ok html, a + k + 1) := by
  intro k
  induction k with
  | zero =>
    intro b a html _ _ hok
    have hok' : stepResult (responses a) = some (FetchResult.ok html) := by simpa using hok
    cases b with
    | zero =>
      have hf := stepResult_ok_finalResult hok'
      simp [fetchAttempts, hf]
    | succ b => simp [fetchAttempts, hok']
  | succ k ih =>
    intro b a html hk hrun hok
    cases b with
    | zero => omega
    | succ b =>
      have h0 : stepResult (responses a) = none := hrun a le_rfl (by omega)
      simp only [fetchAttempts, h0]
      have hok' : stepResult (responses (a + 1 + k)) = some (FetchResult.ok html) := by
        rw [show a + 1 + k = a + (k + 1) from by omega]
        exact hok
      have := ih b (a + 1) html (by omega)
        (fun i h1 h2 => hrun i (by omega) (by omega)) hok'
      rw [this, show a + 1 + k + 1 = a + (k + 1) + 1 from by omega]

/-! ### PDF href extraction (test-doj.spec.ts, line 226)

Model of `Array.from(html.matchAll(/href="([^"]+\.pdf)"/gi)).map(m => m[1])`:
scan left to right; at each position try to match, case-insensitively on
letters, the literal `href="`, then a maximal run of non-quote characters
that is at least 5 long and ends in `.pdf` (case-insensitive), then the
closing quote; on success emit the captured attribute value and resume
after the closing quote, otherwise advance one character. -/

def charCI (a b : Char) : Bool := a.toLower == b.toLower

/-- `matchesCI pat l`: `l` starts with `pat`, compared case-insensitively. -/
def matchesCI : List Char → List Char → Bool
  | [], _ => true
  | _ :: _, [] => false
  | p :: ps, c :: cs => charCI c p && matchesCI ps cs

def hrefPat : List Char := ['h', 'r', 'e', 'f', '=', '"']

/-- The regex group `[^"]+\.pdf` matched against a full non-quote run `v`:
at least one character before a case-insensitive `.pdf` suffix. -/
def endsWithPdfCI (v : List Char) : Bool :=
  decide (5 ≤ v.length) && ((v.reverse.take 4).map Char.toLower == ['f', 'd', 'p', '.'])

/-- Try the regex at the head of `l`; on success return the captured value
and the total number of characters consumed by the match. -/
def matchPdfAt (l : List Char) : Option (List Char × Nat) :=
  if matchesCI hrefPat l then
    let value := (l.drop 6).takeWhile (fun c => c != '"')
    if endsWithPdfCI value && ((l.drop 6).drop value.length).head? == some '"' then
      some (value, 6 + value.length + 1)
    else none
  else none

/-- The `matchAll` scan: at each position try the pattern; on a match of
total length `k` resume after the closing quote, otherwise advance one
character.  The fuel argument — instantiated with the text length, which
every step strictly decreases (a successful match consumes at least one
character) — makes the recursion structural. -/
def scanPdfAux : Nat → List Char → List String
  | 0, _ => []
  | _, [] => []
  | fuel + 1, c :: cs =>
    match matchPdfAt (c :: cs) with
    | some (v, k) => String.mk v :: scanPdfAux fuel (cs.drop (k - 1))
    | none => scanPdfAux fuel cs

def scanPdf (l : List Char) : List String := scanPdfAux l.length l

def extractPdfHrefs (html : String) : List String := scanPdf html.toList

/-! ### Batch items and session state (test-doj.spec.ts, lines 185-231) -/

/-- The per-page record produced inside the batch `Promise.all`
(lines 222-231): an `ok` fetch carries its extracted hrefs, every other
outcome carries no hrefs and only remembers whether it was `blocked`. -/
structure BatchItem where
  pageNumber : Int
  hrefs : List String
  blocked : Bool
deriving DecidableEq, Repr

def toBatchItem (pageNumber : Int) : FetchResult → BatchItem
  | .ok html => ⟨pageNumber, extractPdfHrefs html, false⟩
  | .blocked => ⟨pageNumber, [], true⟩
  | .error => ⟨pageNumber, [], false⟩
  | .empty => ⟨pageNumber, [], false⟩

/-- The mutable locals of the scrape session (lines 156-158, 185-191,
212-215): the deduplicating link set, the append-only link list, and the
counters driving the stop conditions. -/
structure Session where
  uniqueLinks : List String
  allLinks : List String
  emptyPagesInARow : Nat
  lastProcessedPage : Int
  pagesProcessed : Nat
  linksFoundThisRun : Nat
  newLinksThisRun : Nat
  blockedCount : Nat
  batchCount : Nat
  shouldStop : Bool
deriving DecidableEq, Repr

/-- Link admission (lines 287-294): membership test against the set, then
append to both the set and the ordered list. -/
def addLink (s : Session) (absoluteUrl : String) : Session :=
  if absoluteUrl ∈ s.uniqueLinks then s
  else { s with uniqueLinks := s.uniqueLinks ++ [absoluteUrl],
                allLinks := s.allLinks ++ [absoluteUrl],
                newLinksThisRun := s.newLinksThisRun + 1 }

/-- The `for (const href of result.hrefs)` loop; `resolve` is the platform
URL resolver `href => new URL(href, BASE_URL).toString()`. -/
def addHrefs (resolve : String → String) : Session → List String → Session
  | s, [] => s
  | s, href :: rest => addHrefs resolve (addLink s (resolve href)) rest

/-- The per-result aggregation loop (lines 259-299): blocked results are
skipped; a result with zero hrefs bumps `emptyPagesInARow` and stops the
session (breaking out of the loop) at the threshold; a result with hrefs
resets the empty counter, updates the totals and admits each resolved
link. -/
def processResults (resolve : String → String) : Session → List BatchItem → Session
  | s, [] => s
  | s, r :: rs =>
    if r.blocked then processResults resolve s rs
    else
      let s1 : Session := { s with lastProcessedPage := r.pageNumber }
      if r.hrefs.length = 0 then
        let s2 : Session := { s1 with emptyPagesInARow := s1.emptyPagesInARow + 1 }
        if EMPTY_PAGES_BEFORE_STOP ≤ s2.emptyPagesInARow then { s2 with shouldStop := true }
        else processResults resolve s2 rs
      else
        let s3 : Session := { s1 with
          emptyPagesInARow := 0,
          pagesProcessed := s1.pagesProcessed + 1,
          linksFoundThisRun := s1.linksFoundThisRun + r.hrefs.length }
        processResults resolve (addHrefs resolve s3 r.hrefs) rs

/-! ### Batch ordering and aggregation (test-doj.spec.ts, lines 217-314) -/

def pageLE (a b : BatchItem) : Prop := a.pageNumber ≤ b.pageNumber

instance : DecidableRel pageLE :=
  fun a b => inferInstanceAs (Decidable (a.pageNumber ≤ b.pageNumber))

instance : IsTotal BatchItem pageLE := ⟨fun a b => Int.le_total a.pageNumber b.pageNumber⟩

instance : IsTrans BatchItem pageLE := ⟨fun _ _ _ hab hbc => le_trans hab hbc⟩

/-- `batchResults.sort((a, b) => a.pageNumber - b.pageNumber)` (line 233):
a stable sort by ascending page number. -/
def sortByPage (l : List BatchItem) : List BatchItem := List.insertionSort pageLE l

/-- Lines 236-313 applied to the already-sorted batch results: the
full-batch-block check with its stop threshold, the `blockedInBatch === 0`
reset, the per-result loop and the `batchCount` bump.  The boolean is true
when the whole batch was blocked, in which case the caller does not
advance the cursor. -/
def aggregateSorted (resolve : String → String) (s : Session) (sorted : List BatchItem) :
    Session × Bool :=
  let blockedInBatch := (sorted.filter (fun r => r.blocked)).length
  if blockedInBatch = sorted.length then
    let s1 : Session := { s with blockedCount := s.blockedCount + 1 }
    if MAX_BLOCKED_BEFORE_STOP ≤ s1.blockedCount then ({ s1 with shouldStop := true }, true)
    else (s1, true)
  else
    let s1 := if blockedInBatch = 0 then { s with blockedCount := 0 } else s
    let s2 := processResults resolve s1 sorted
    ({ s2 with batchCount := s2.batchCount + 1 }, false)

/-- Aggregation of a batch as the code performs it: sort, then fold. -/
def aggregateResults (resolve : String → String) (s : Session) (results : List BatchItem) :
    Session × Bool :=
  aggregateSorted resolve s (sortByPage results)

/-- Batch construction (lines 218-220): `w` consecutive page numbers from
the cursor, capped at `MAX_PAGE`. -/
def batchPages (start : Int) (w : Nat) : List Int :=
  ((List.range w).map (fun i => start + (i : Int))).filter (fun p => decide (p ≤ MAX_PAGE))

/-- One iteration of the `for (let start = ...)` loop over a batch of width
`w`: fetch outcomes come from `fetched`, aggregation follows the code, and
the returned cursor reflects `start -= CONCURRENCY; continue` on a fully
blocked batch (net: unchanged), the `break` paths (unchanged), and the
normal `start += CONCURRENCY` advance. -/
def schedIter (resolve : String → String) (w : Nat) (fetched : Int → FetchResult)
    (s : Session) (start : Int) : Session × Int :=
  let results := (batchPages start w).map (fun n => toBatchItem n (fetched n))
  let r := aggregateResults resolve s results
  if r.2 then (r.1, start) else (r.1, start + (w : Int))

/-! ### Resume rule (test-doj.spec.ts, lines 27-31, 161-163) -/

structure ProgressState where
  lastProcessedPage : Int
  totalLinksFound : Nat
  timestamp : String
deriving DecidableEq, Repr

def resumePage : Option ProgressState → Int
  | some p => p.lastProcessedPage
  | none => -1

/-- `const startPage = envStartPage ?? resumePage + 1;` (line 163). -/
def startPage (envStartPage : Option Int) (progress : Option ProgressState) : Int :=
  match envStartPage with
  | some e => e
  | none => resumePage progress + 1

/-! ### Page URL construction (test-doj.spec.ts line 33;
doj-pdf-scraper.spec.ts lines 52-56) -/

/-- `formatPageUrl` of the consolidated scraper: the page parameter is
always appended. -/
def formatPageUrl (pageNumber : Int) : String :=
  BASE_URL ++ "?page=" ++ toString pageNumber

/-- The URL built inside `scrapePage` of the tab-pool variant: page 1 uses
the bare listing URL. -/
def scrapePageUrl (pageNum : Int) : String :=
  if pageNum = 1 then BASE_URL else BASE_URL ++ "?page=" ++ toString pageNum

/-! ### Link file persistence (test-doj.spec.ts, lines 35-62)

File contents are modelled as the character list of the string handed to
`fs.writeFile` / returned by `fs.readFile`.  `trim` is modelled over the
ASCII whitespace characters plus NBSP (the Unicode space classes JS also
trims are outside the model and unreachable from the scraper's URLs). -/

def isJsSpace (c : Char) : Bool :=
  c == ' ' || c == '\t' || c == '\n' || c == '\r' || c == '\x0b' || c == '\x0c' || c == '\xa0'

def trimChars (l : List Char) : List Char :=
  ((l.dropWhile isJsSpace).reverse.dropWhile isJsSpace).reverse

/-- JS `contents.split('\n')`. -/
def splitLines : List Char → List (List Char)
  | [] => [[]]
  | c :: cs =>
    if c = '\n' then [] :: splitLines cs
    else
      match splitLines cs with
      | [] => [[c]]
      | l :: ls => (c :: l) :: ls

/-- The `seen`-set dedupe of `readExistingLinks` (lines 42-49): keep the
first occurrence of every line. -/
def dedupeGo (seen : List String) : List String → List String
  | [] => []
  | x :: xs => if x ∈ seen then dedupeGo seen xs else x :: dedupeGo (x :: seen) xs

def dedupeKeepFirst (l : List String) : List String := dedupeGo [] l

/-- `readExistingLinks` (lines 35-57): split on newlines, trim, drop empty
lines, dedupe keeping first occurrences. -/
def readExistingLinks (contents : String) : List String :=
  dedupeKeepFirst
    (((splitLines contents.toList).map (fun l => String.mk (trimChars l))).filter
      (fun l => l != ""))

/-- JS `links.join('\n')`. -/
def joinLines : List (List Char) → List Char
  | [] => []
  | [x] => x
  | x :: y :: ys => x ++ '\n' :: joinLines (y :: ys)

/-- `writeLinks` (lines 59-62): newline-joined list with a trailing newline,
or the empty string for an empty list. -/
def writeLinks (links : List String) : String :=
  if 0 < links.length then String.mk (joinLines (links.map String.toList) ++ ['\n'])
  else ""

/-! ### Progress persistence (test-doj.spec.ts, lines 64-80, 202-210) -/

inductive FsOp where
  | write (path : String) (content : String)
  | rename (src : String) (dst : String)
deriving DecidableEq, Repr

/-- `JSON.stringify(state, null, 2)` for a `ProgressState`, with the
object-literal key order of `saveCheckpoint` (lines 203-207). -/
def serializeProgress (st : ProgressState) : String :=
  "\x7b\n  \"lastProcessedPage\": " ++ toString st.lastProcessedPage ++
    ",\n  \"totalLinksFound\": " ++ toString st.totalLinksFound ++
    ",\n  \"timestamp\": \"" ++ st.timestamp ++ "\"\n\x7d"

/-- `writeProgress` (lines 78-80) as the file-system operations it issues:
a single direct `fs.writeFile` of the serialized state to the final path. -/
def writeProgressOps (filePath : String) (state : ProgressState) : List FsOp :=
  [FsOp.write filePath (serializeProgress state)]

def writesDirectlyTo : FsOp → String → Prop
  | .write p _, target => p = target
  | .rename _ _, _ => False

instance (op : FsOp) (target : String) : Decidable (writesDirectlyTo op target) :=
  match op with
  | .write p _ => inferInstanceAs (Decidable (p = target))
  | .rename _ _ => inferInstanceAs (Decidable False)

/-- The write-to-temp-then-rename discipline: the target path is never the
destination of a direct content write; its bytes change only through an
atomic rename. -/
def atomicWriteDiscipline (ops : List FsOp) (target : String) : Prop :=
  ∀ op ∈ ops, ¬ writesDirectlyTo op target

instance (ops : List FsOp) (target : String) : Decidable (atomicWriteDiscipline ops target) :=
  inferInstanceAs (Decidable (∀ op ∈ ops, ¬ writesDirectlyTo op target))

/-- Crash model for a direct write: if the process dies mid-`writeFile`, a
reader of `target` can observe any strict prefix of the content being
written. -/
def partialWriteObservable (ops : List FsOp) (target : String) (obs : String) : Prop :=
  ∃ c, FsOp.write target c ∈ ops ∧ ∃ k, k < c.toList.length ∧ obs = String.mk (c.toList.take k)

/-! ### Helper lemmas about the session-processing functions -/

lemma addLink_emptyPagesInARow (s : Session) (u : String) :
    (addLink s u).emptyPagesInARow = s.emptyPagesInARow := by
  unfold addLink
  split <;> rfl

lemma addLink_blockedCount (s : Session) (u : String) :
    (addLink s u).blockedCount = s.blockedCount := by
  unfold addLink
  split <;> rfl

lemma addHrefs_emptyPagesInARow (resolve : String → String) :
    ∀ hs s, (addHrefs resolve s hs).emptyPagesInARow = s.emptyPagesInARow := by
  intro hs
  induction hs with
  | nil => intro s; rfl
  | cons h t ih =>
    intro s
    rw [addHrefs, ih, addLink_emptyPagesInARow]

lemma addHrefs_blockedCount (resolve : String → String) :
    ∀ hs s, (addHrefs resolve s hs).blockedCount = s.blockedCount := by
  intro hs
  induction hs with
  | nil => intro s; rfl
  | cons h t ih =>
    intro s
    rw [addHrefs, ih, addLink_blockedCount]

lemma processResults_blockedCount (resolve : String → String) :
    ∀ l s, (processResults resolve s l).blockedCount = s.blockedCount := by
  intro l
  induction l with
  | nil => intro s; rfl
  | cons r rs ih =>
    intro s
    simp only [processResults]
    split
    · exact ih s
    · split
      · split
        · rfl
        · rw [ih]
      · rw [ih, addHrefs_blockedCount]

/-! ### Helper lemmas about sorting by page number -/

lemma sortByPage_perm (l : List BatchItem) : List.Perm (sortByPage l) l :=
  List.perm_insertionSort pageLE l

lemma sortByPage_sorted (l : List BatchItem) : List.Sorted pageLE (sortByPage l) :=
  List.sorted_insertionSort pageLE l

/-- Two sorted permutations of each other agree once page numbers are
distinct. -/
lemma sorted_perm_eq_of_nodup_keys :
    ∀ {l₁ l₂ : List BatchItem}, List.Perm l₁ l₂ → List.Sorted pageLE l₁ → List.Sorted pageLE l₂ →
      (l₂.map BatchItem.pageNumber).Nodup → l₁ = l₂ := by
  intro l₁
  induction l₁ with
  | nil =>
    intro l₂ hp _ _ _
    exact (hp.symm.eq_nil).symm
  | cons a t ih =>
    intro l₂ hp hs₁ hs₂ hnd
    cases l₂ with
    | nil => exact absurd hp.eq_nil (by simp)
    | cons b t₂ =>
      have hnd' : b.pageNumber ∉ t₂.map BatchItem.pageNumber ∧
          (t₂.map BatchItem.pageNumber).Nodup := by
        rw [List.map_cons] at hnd
        exact ⟨(List.nodup_cons.mp hnd).1, (List.nodup_cons.mp hnd).2⟩
      have hab : a = b := by
        have ha2 : a ∈ b :: t₂ := hp.mem_iff.mp (List.mem_cons_self a t)
        rcases List.mem_cons.mp ha2 with h | h
        · exact h
        · have hba : pageLE b a := (List.sorted_cons.mp hs₂).1 a h
          have hb1 : b ∈ a :: t := hp.symm.mem_iff.mp (List.mem_cons_self b t₂)
          rcases List.mem_cons.mp hb1 with h' | h'
          · exact h'.symm
          · have hab' : pageLE a b := (List.sorted_cons.mp hs₁).1 b h'
            have hkey : a.pageNumber = b.pageNumber := le_antisymm hab' hba
            have hmem : a.pageNumber ∈ t₂.map BatchItem.pageNumber :=
              List.mem_map_of_mem BatchItem.pageNumber h
            rw [hkey] at hmem
            exact absurd hmem hnd'.1
      subst hab
      have hpt : List.Perm t t₂ := hp.cons_inv
      rw [ih hpt hs₁.of_cons hs₂.of_cons hnd'.2]

/-- Sorting any completion order of a batch with distinct page numbers
recovers the ascending order. -/
lemma sortByPage_eq_of_perm {l l' : List BatchItem}
    (hasc : List.Pairwise (fun a b => a.pageNumber < b.pageNumber) l)
    (hperm : List.Perm l' l) : sortByPage l' = l := by
  have hle : List.Sorted pageLE l := hasc.imp (fun h => le_of_lt h)
  have hnd : (l.map BatchItem.pageNumber).Nodup := by
    refine (List.pairwise_map).mpr ?_
    exact hasc.imp (fun h => ne_of_lt h)
  exact sorted_perm_eq_of_nodup_keys ((sortByPage_perm l').trans hperm)
    (sortByPage_sorted l') hle hnd

/-! ### Helper lemmas about batch construction -/

lemma start_mem_batchPages {start : Int} {w : Nat} (hw : 1 ≤ w) (hs : start ≤ MAX_PAGE) :
    start ∈ batchPages start w := by
  rw [batchPages, List.mem_filter]
  constructor
  · simp
    exact ⟨0, by omega, by simp⟩
  · simpa using hs

lemma batchPages_head (start : Int) (w : Nat) (hw : 1 ≤ w) (hs : start ≤ MAX_PAGE) :
    (batchPages start w).head? = some start := by
  obtain ⟨m, rfl⟩ : ∃ m, w = m + 1 := ⟨w - 1, by omega⟩
  rw [batchPages, List.range_succ_eq_map]
  simp [hs]

/-! ### Helper lemmas about the link-file round trip -/

lemma splitLines_cons_of_ne {c : Char} (cs : List Char) (hc : ¬ c = '\n')
    {a : List Char} {as : List (List Char)} (h : splitLines cs = a :: as) :
    splitLines (c :: cs) = (c :: a) :: as := by
  rw [splitLines, if_neg hc, h]

lemma splitLines_append : ∀ (x r : List Char), '\n' ∉ x → ∀ a as, splitLines r = a :: as →
    splitLines (x ++ r) = (x ++ a) :: as := by
  intro x
  induction x with
  | nil =>
    intro r _ a as h
    simpa using h
  | cons c cs ih =>
    intro r hx a as h
    have hc : ¬ c = '\n' := by
      intro e
      exact hx (by rw [e]; exact List.mem_cons_self _ _)
    have hcs : '\n' ∉ cs := fun m => hx (List.mem_cons_of_mem c m)
    rw [List.cons_append, splitLines_cons_of_ne (cs ++ r) hc (ih r hcs a as h),
      List.cons_append]

lemma splitLines_joinLines : ∀ (lines : List (List Char)), lines ≠ [] →
    (∀ l ∈ lines, '\n' ∉ l) →
    splitLines (joinLines lines ++ ['\n']) = lines ++ [[]] := by
  intro lines
  induction lines with
  | nil => intro h _; exact absurd rfl h
  | cons x ys ih =>
    intro _ hnl
    cases ys with
    | nil =>
      have h1 : splitLines ['\n'] = [[], []] := by
        rw [splitLines, if_pos rfl]
        rfl
      rw [joinLines]
      have := splitLines_append x ['\n'] (hnl x (List.mem_cons_self _ _)) [] [[]] h1
      simpa using this
    | cons y zs =>
      have hys : splitLines (joinLines (y :: zs) ++ ['\n']) = (y :: zs) ++ [[]] :=
        ih (by simp) (fun l hl => hnl l (List.mem_cons_of_mem x hl))
      have hsp : splitLines ('\n' :: (joinLines (y :: zs) ++ ['\n'])) =
          [] :: ((y :: zs) ++ [[]]) := by
        rw [splitLines, if_pos rfl, hys]
      have := splitLines_append x ('\n' :: (joinLines (y :: zs) ++ ['\n']))
        (hnl x (List.mem_cons_self _ _)) [] ((y :: zs) ++ [[]]) hsp
      rw [joinLines]
      simpa using this

lemma dedupeGo_eq_self : ∀ (l seen : List String), l.Nodup → (∀ x ∈ l, x ∉ seen) →
    dedupeGo seen l = l := by
  intro l
  induction l with
  | nil => intro seen _ _; rfl
  | cons x xs ih =>
    intro seen hnd hdisj
    rw [dedupeGo, if_neg (hdisj x (List.mem_cons_self _ _))]
    rw [ih (x :: seen) (List.nodup_cons.mp hnd).2]
    intro y hy
    rw [List.mem_cons]
    push_neg
    constructor
    · intro e
      exact (List.nodup_cons.mp hnd).1 (e ▸ hy)
    · exact hdisj y (List.mem_cons_of_mem x hy)

lemma dedupeGo_nodup : ∀ (l seen : List String),
    (dedupeGo seen l).Nodup ∧ ∀ y ∈ dedupeGo seen l, y ∉ seen := by
  intro l
  induction l with
  | nil => intro seen; simp [dedupeGo]
  | cons x xs ih =>
    intro seen
    rw [dedupeGo]
    split
    · exact ih seen
    · case isFalse hx =>
      obtain ⟨hnd, hns⟩ := ih (x :: seen)
      refine ⟨?_, ?_⟩
      · rw [List.nodup_cons]
        exact ⟨fun hmem => (hns x hmem) (List.mem_cons_self _ _), hnd⟩
      · intro y hy
        rcases List.mem_cons.mp hy with rfl | hy'
        · exact hx
        · exact fun hseen => hns y hy' (List.mem_cons_of_mem _ hseen)


lemma stepResult_ne_empty {o : AttemptOutcome} {r : FetchResult}
    (h : stepResult o = some r) : r ≠ FetchResult.empty := by
  cases o with
  | exception => simp [stepResult] at h
  | response status body =>
    simp only [stepResult] at h
    split at h
    · exact absurd h (by simp)
    · split at h
      · rw [Option.some_inj] at h
        rw [← h]
        simp
      · split at h
        · exact absurd h (by simp)
        · rw [Option.some_inj] at h
          rw [← h]
          simp

/-! ### Claim theorems -/

/-- Claim C10: for every sequence of per-attempt responses and every retry
budget, `fetchWithRetry` returns only the `ok`, `blocked` or `error`
variants and never the `empty` variant of `FetchResult` (in the model it is
a total function, so it never throws); the `empty` classification is
decided downstream by the scheduler from a zero href count. -/
theorem fetchWithRetry_never_empty (responses : Nat → AttemptOutcome) (retries : Nat) :
    (fetchWithRetry responses retries).1 ≠ FetchResult.empty := by
  have haux : ∀ b a, (fetchAttempts responses a b).1 ≠ FetchResult.empty := by
    intro b
    induction b with
    | zero =>
      intro a
      simp only [fetchAttempts]
      cases responses a with
      | exception => simp [finalResult]
      | response status body =>
        simp only [finalResult]
        split
        · simp
        · split <;> simp
    | succ b ih =>
      intro a
      simp only [fetchAttempts]
      cases h : stepResult (responses a) with
      | none => exact ih (a + 1)
      | some r => exact stepResult_ne_empty h
  exact haux retries 0

/-- Claim C3: for every sequence of per-attempt outcomes and every retry
budget, `fetchWithRetry` performs at most `retries + 1` attempts; when all
earlier attempts stay on the retry paths, the final attempt decides the
result via `finalResult` — a blocked body yields `blocked`, an exception or
a non-OK non-blocked response yields `error` — and a non-blocked OK
response at any attempt `k` yields `ok` immediately after `k + 1`
attempts. -/
theorem fetchWithRetry_ladder (responses : Nat → AttemptOutcome) (retries : Nat) :
    (fetchWithRetry responses retries).2 ≤ retries + 1
    ∧ ((∀ i, i < retries → stepResult (responses i) = none) →
        fetchWithRetry responses retries =
          (finalResult (responses retries), retries + 1))
    ∧ (∀ status body, isBlockedResponse body = true →
        finalResult (.response status body) = FetchResult.blocked)
    ∧ finalResult .exception = FetchResult.error
    ∧ (∀ status body, isBlockedResponse body = false → respOk status = false →
        finalResult (.response status body) = FetchResult.error)
    ∧ (∀ k html, k ≤ retries → (∀ i, i < k → stepResult (responses i) = none) →
        stepResult (responses k) = some (FetchResult.ok html) →
        fetchWithRetry responses retries = (FetchResult.ok html, k + 1)) := by
  refine ⟨?_, ?_, ?_, ?_, ?_, ?_⟩
  · simpa [fetchWithRetry] using fetchAttempts_attempts_le responses retries 0
  · intro h
    have := fetchAttempts_run responses retries 0 (fun i h1 h2 => h i (by omega))
    simpa [fetchWithRetry] using this
  · intro status body hb
    simp [finalResult, hb]
  · rfl
  · intro status body hb hok
    simp [finalResult, hb, hok]
  · intro k html hk hrun hok
    have := fetchAttempts_ok responses k retries 0 html hk
      (fun i h1 h2 => hrun i (by omega)) (by simpa using hok)
    simpa [fetchWithRetry] using this

/-- Witness for C3: a run of all-blocked attempts exhausts the budget and
classifies `blocked` after 6 attempts; an immediately OK response returns
`ok` after one attempt. -/
theorem fetchWithRetry_ladder_witness :
    fetchWithRetry (fun _ => AttemptOutcome.response 200 "Access Denied") 5 =
      (FetchResult.blocked, 6)
    ∧ fetchWithRetry (fun _ => AttemptOutcome.response 200 "hello") 5 =
      (FetchResult.ok "hello", 1) := by
  constructor
  · have h := (fetchWithRetry_ladder (fun _ => AttemptOutcome.response 200 "Access Denied") 5).2.1
      (fun i _ => by decide)
    rw [h]
    decide
  · exact (fetchWithRetry_ladder (fun _ => AttemptOutcome.response 200 "hello") 5).2.2.2.2.2
      0 "hello" (by omega) (fun i hi => absurd hi (by omega)) (by decide)

/-- Claim C6 counterexample: the consolidated scraper's `formatPageUrl`
does not request the bare listing URL for page 1 — the page parameter is
appended there too. -/
theorem formatPageUrl_page1_cex : formatPageUrl 1 ≠ BASE_URL := by decide

/-- Claim C6 amended: `formatPageUrl` builds the URL from the base listing
URL and the 1-indexed page parameter for every page, including page 1; only
the tab-pool variant (`scrapePage` in doj-pdf-scraper.spec.ts) omits the
parameter for page 1 and requests the bare listing URL. -/
theorem pageUrl_rules :
    (∀ n : Int, formatPageUrl n = BASE_URL ++ "?page=" ++ toString n)
    ∧ scrapePageUrl 1 = BASE_URL
    ∧ (∀ n : Int, n ≠ 1 → scrapePageUrl n = BASE_URL ++ "?page=" ++ toString n) := by
  refine ⟨fun n => rfl, ?_, ?_⟩
  · rw [scrapePageUrl, if_pos rfl]
  · intro n hn
    rw [scrapePageUrl, if_neg hn]

/-- Witness for C6 (amended): page 2 of the tab-pool variant carries the
page parameter. -/
theorem pageUrl_rules_witness :
    (2 : Int) ≠ 1 ∧ scrapePageUrl 2 = BASE_URL ++ "?page=" ++ toString (2 : Int) :=
  ⟨by decide, pageUrl_rules.2.2 2 (by decide)⟩

/-- Claim C2 counterexample: with persisted `lastProcessedPage = 100` and
explicit override 5, the session starts at page 5, not at
`max(override, K + 1, default start) = 101`. -/
theorem startPage_not_max_cex :
    startPage (some 5) (some ⟨100, 0, ""⟩) = 5 ∧
      startPage (some 5) (some ⟨100, 0, ""⟩) ≠ max (max 5 (100 + 1)) 0 := by
  decide

/-- Claim C2 amended: the explicit override, when present, is the effective
start page unconditionally (it wins even below the resume point, enabling
forced re-scraping); with no override the start page is
`lastProcessedPage + 1`, defaulting to 0 when no progress exists, and it is
the first page number of the first dispatched batch. -/
theorem startPage_resume_rules :
    (∀ e progress, startPage (some e) progress = e)
    ∧ (∀ K tl ts, startPage none (some ⟨K, tl, ts⟩) = K + 1)
    ∧ startPage none none = 0
    ∧ (∀ (K : Int) tl ts (w : Nat), 1 ≤ w → K + 1 ≤ MAX_PAGE →
        (batchPages (startPage none (some ⟨K, tl, ts⟩)) w).head? = some (K + 1)) := by
  refine ⟨fun e p => rfl, fun K tl ts => rfl, rfl, ?_⟩
  intro K tl ts w hw hK
  exact batchPages_head (K + 1) w hw hK

/-- Witness for C2 (amended): resuming from page 7 requests page 8 first. -/
theorem startPage_resume_rules_witness :
    (1 : Nat) ≤ 1 ∧ (7 : Int) + 1 ≤ MAX_PAGE ∧
      (batchPages (startPage none (some ⟨7, 0, ""⟩)) 1).head? = some ((7 : Int) + 1) :=
  ⟨le_rfl, by decide, startPage_resume_rules.2.2.2 7 0 "" 1 le_rfl (by decide)⟩

/-- Claim C9 counterexample: `writeProgress` does not follow the
write-to-temp-then-rename discipline — it writes the serialized state
directly to the progress file path. -/
theorem writeProgress_not_atomic_cex :
    ¬ atomicWriteDiscipline
      (writeProgressOps "pdf-links.progress.json" ⟨7, 2, "2026-01-01T00:00:00.000Z"⟩)
      "pdf-links.progress.json" := by
  decide

/-- Claim C9 amended: each checkpoint overwrites the progress file with a
single direct `fs.writeFile` of the serialized state (no temp file, no
rename), so under a crash-during-write model a reader can observe a partial
prefix of the new state that differs from it. -/
theorem writeProgress_direct_write (filePath : String) (st : ProgressState) :
    writeProgressOps filePath st = [FsOp.write filePath (serializeProgress st)]
    ∧ ¬ atomicWriteDiscipline (writeProgressOps filePath st) filePath
    ∧ ∃ obs, partialWriteObservable (writeProgressOps filePath st) filePath obs ∧
        obs ≠ serializeProgress st := by
  have hpos : 0 < (serializeProgress st).length := by
    rw [serializeProgress, String.length_append, String.length_append,
      String.length_append, String.length_append, String.length_append,
      String.length_append]
    have h1 : (0 : Nat) < ("\x7b\n  \"lastProcessedPage\": " : String).length := by decide
    omega
  refine ⟨rfl, ?_, ?_⟩
  · intro h
    exact h (FsOp.write filePath (serializeProgress st))
      (List.mem_cons_self _ _) rfl
  · refine ⟨"", ⟨serializeProgress st, List.mem_cons_self _ _, 0, hpos, rfl⟩, ?_⟩
    intro h
    have h2 := congrArg String.length h
    have h3 : ("" : String).length = 0 := rfl
    omega

lemma map_eq_self_of_forall {α : Type} (f : α → α) :
    ∀ l : List α, (∀ a ∈ l, f a = a) → l.map f = l := by
  intro l
  induction l with
  | nil => intro _; rfl
  | cons x xs ih =>
    intro h
    rw [List.map_cons, h x (List.mem_cons_self _ _),
      ih (fun a ha => h a (List.mem_cons_of_mem x ha))]

/-- The session as initialised at the start of a fresh run (no existing
links, all counters zero). -/
def sessInit : Session :=
  { uniqueLinks := [], allLinks := [], emptyPagesInARow := 0, lastProcessedPage := -1,
    pagesProcessed := 0, linksFoundThisRun := 0, newLinksThisRun := 0, blockedCount := 0,
    batchCount := 0, shouldStop := false }

lemma aggregateSorted_full_blocked (resolve : String → String) (s : Session)
    (sorted : List BatchItem) (hall : ∀ r ∈ sorted, r.blocked = true) :
    aggregateSorted resolve s sorted =
      (if MAX_BLOCKED_BEFORE_STOP ≤ s.blockedCount + 1 then
        ({ s with blockedCount := s.blockedCount + 1, shouldStop := true }, true)
      else ({ s with blockedCount := s.blockedCount + 1 }, true)) := by
  have hfil : sorted.filter (fun r => r.blocked) = sorted := List.filter_eq_self.mpr hall
  simp only [aggregateSorted, hfil, if_true, eq_self_iff_true]

lemma aggregateSorted_not_full (resolve : String → String) (s : Session)
    (sorted : List BatchItem)
    (hne : (sorted.filter (fun r => r.blocked)).length ≠ sorted.length) :
    aggregateSorted resolve s sorted =
      (let s1 := if (sorted.filter (fun r => r.blocked)).length = 0 then
          { s with blockedCount := 0 } else s
       let s2 := processResults resolve s1 sorted
       ({ s2 with batchCount := s2.batchCount + 1 }, false)) := by
  simp only [aggregateSorted, if_neg hne]

/-- Claim C1 counterexample: a page whose fetch outcome is `error` does
affect the consecutive-empty counter — the batch mapping collapses it to
`hrefs = []`, `blocked = false`, so the loop counts it like an empty page
and increments. -/
theorem emptyPages_error_increments_cex :
    (processResults (fun u => u) sessInit
        [toBatchItem 5 FetchResult.error]).emptyPagesInARow ≠
      sessInit.emptyPagesInARow := by
  decide

/-- Claim C1 amended: a `blocked` page is skipped entirely (it neither
increments nor resets the consecutive-empty counter); a page with fetch
outcome `error`, exactly like a successfully fetched page with zero
matching links, increments the counter; a page yielding at least one
(new or duplicate) link resets it to zero. -/
theorem emptyPages_counter_rules :
    (∀ (resolve : String → String) (s : Session) (n : Int) (rs : List BatchItem),
        processResults resolve s (toBatchItem n FetchResult.blocked :: rs) =
          processResults resolve s rs)
    ∧ (∀ (resolve : String → String) (s : Session) (n : Int),
        (processResults resolve s [toBatchItem n FetchResult.error]).emptyPagesInARow =
          s.emptyPagesInARow + 1)
    ∧ (∀ (resolve : String → String) (s : Session) (n : Int) (html : String),
        extractPdfHrefs html = [] →
        (processResults resolve s
            [toBatchItem n (FetchResult.ok html)]).emptyPagesInARow =
          s.emptyPagesInARow + 1)
    ∧ (∀ (resolve : String → String) (s : Session) (n : Int) (html : String),
        extractPdfHrefs html ≠ [] →
        (processResults resolve s
            [toBatchItem n (FetchResult.ok html)]).emptyPagesInARow = 0) := by
  refine ⟨?_, ?_, ?_, ?_⟩
  · intro resolve s n rs
    simp [processResults, toBatchItem]
  · intro resolve s n
    by_cases h : EMPTY_PAGES_BEFORE_STOP ≤ s.emptyPagesInARow + 1
    · simp [processResults, toBatchItem, h]
    · simp [processResults, toBatchItem, h]
  · intro resolve s n html hempty
    by_cases h : EMPTY_PAGES_BEFORE_STOP ≤ s.emptyPagesInARow + 1
    · simp [processResults, toBatchItem, hempty, h]
    · simp [processResults, toBatchItem, hempty, h]
  · intro resolve s n html hl
    simp [processResults, toBatchItem, List.length_eq_zero, hl,
      addHrefs_emptyPagesInARow]

/-- Witness for C1 (amended): an OK page with no PDF hrefs increments the
counter; an OK page with one PDF href resets it. -/
theorem emptyPages_counter_rules_witness :
    extractPdfHrefs "" = []
    ∧ (processResults (fun u => u) sessInit
        [toBatchItem 4 (FetchResult.ok "")]).emptyPagesInARow =
        sessInit.emptyPagesInARow + 1
    ∧ extractPdfHrefs "<a href=\"a.pdf\">" ≠ []
    ∧ (processResults (fun u => u) sessInit
        [toBatchItem 9 (FetchResult.ok "<a href=\"a.pdf\">")]).emptyPagesInARow = 0 :=
  ⟨by decide,
   emptyPages_counter_rules.2.2.1 (fun u => u) sessInit 4 "" (by decide),
   by decide,
   emptyPages_counter_rules.2.2.2 (fun u => u) sessInit 9 "<a href=\"a.pdf\">" (by decide)⟩

/-- Claim C4: when every page of a batch resolves to `blocked`, the
scheduler leaves the cursor where it was — so the identical set of page
numbers is dispatched again after the cooldown — and increments the
consecutive-full-block counter; while the counter stays below
`MAX_BLOCKED_BEFORE_STOP` the stop flag is untouched, and once it reaches
the bound the session stops in the blocked state instead. -/
theorem fullBlockedBatch_redispatch_or_stop (resolve : String → String) (w : Nat)
    (fetched : Int → FetchResult) (s : Session) (start : Int)
    (hw : 1 ≤ w) (hs : start ≤ MAX_PAGE)
    (hall : ∀ n ∈ batchPages start w, fetched n = FetchResult.blocked) :
    (schedIter resolve w fetched s start).2 = start
    ∧ batchPages (schedIter resolve w fetched s start).2 w = batchPages start w
    ∧ (schedIter resolve w fetched s start).1.blockedCount = s.blockedCount + 1
    ∧ (s.blockedCount + 1 < MAX_BLOCKED_BEFORE_STOP →
        (schedIter resolve w fetched s start).1.shouldStop = s.shouldStop)
    ∧ (MAX_BLOCKED_BEFORE_STOP ≤ s.blockedCount + 1 →
        (schedIter resolve w fetched s start).1.shouldStop = true) := by
  have hres : ∀ r ∈ (batchPages start w).map (fun n => toBatchItem n (fetched n)),
      r.blocked = true := by
    intro r hr
    obtain ⟨n, hn, rfl⟩ := List.mem_map.mp hr
    rw [hall n hn]
    rfl
  have hmem : ∀ r ∈ sortByPage ((batchPages start w).map (fun n => toBatchItem n (fetched n))),
      r.blocked = true :=
    fun r hr => hres r ((sortByPage_perm _).mem_iff.mp hr)
  have hr : aggregateResults resolve s
      ((batchPages start w).map (fun n => toBatchItem n (fetched n))) =
      (if MAX_BLOCKED_BEFORE_STOP ≤ s.blockedCount + 1 then
        ({ s with blockedCount := s.blockedCount + 1, shouldStop := true }, true)
      else ({ s with blockedCount := s.blockedCount + 1 }, true)) := by
    rw [aggregateResults]
    exact aggregateSorted_full_blocked resolve s _ hmem
  by_cases hstop : MAX_BLOCKED_BEFORE_STOP ≤ s.blockedCount + 1
  · rw [if_pos hstop] at hr
    have h2 : (schedIter resolve w fetched s start).2 = start := by
      simp [schedIter, hr]
    refine ⟨h2, by rw [h2], by simp [schedIter, hr], ?_, fun _ => by simp [schedIter, hr]⟩
    intro hlt
    exact absurd hstop (by omega)
  · rw [if_neg hstop] at hr
    have h2 : (schedIter resolve w fetched s start).2 = start := by
      simp [schedIter, hr]
    refine ⟨h2, by rw [h2], by simp [schedIter, hr], fun _ => by simp [schedIter, hr], ?_⟩
    intro hge
    exact absurd hge hstop

/-- Witness for C4: a fresh session hitting a fully blocked width-3 batch
at page 10 keeps the cursor at 10 and counts one blocked batch. -/
theorem fullBlockedBatch_witness :
    (1 : Nat) ≤ 3 ∧ (10 : Int) ≤ MAX_PAGE
    ∧ (schedIter (fun u => u) 3 (fun _ => FetchResult.blocked) sessInit 10).2 = 10
    ∧ (schedIter (fun u => u) 3 (fun _ => FetchResult.blocked) sessInit 10).1.blockedCount =
        sessInit.blockedCount + 1 :=
  ⟨by decide, by decide,
   (fullBlockedBatch_redispatch_or_stop (fun u => u) 3 (fun _ => FetchResult.blocked)
      sessInit 10 (by decide) (by decide) (fun n _ => rfl)).1,
   (fullBlockedBatch_redispatch_or_stop (fun u => u) 3 (fun _ => FetchResult.blocked)
      sessInit 10 (by decide) (by decide) (fun n _ => rfl)).2.2.1⟩

/-- Claim C5 counterexample: a width-2 batch with one blocked and one
non-blocked page leaves the consecutive-full-block counter at 1 instead of
resetting it to zero — the code resets only when `blockedInBatch === 0`. -/
theorem blockedCount_partial_batch_cex :
    (schedIter (fun u => u) 2
        (fun n => if n = 1 then FetchResult.blocked else FetchResult.ok "")
        { sessInit with blockedCount := 1 } 1).1.blockedCount ≠ 0 := by
  decide

/-- Claim C5 amended: processing a batch resets the consecutive-full-block
counter exactly when the batch contains no blocked result; a partially
blocked batch (some but not all pages blocked) leaves the counter
unchanged.  (With the repository's `CONCURRENCY = 1` a batch with a
non-blocked result has no blocked result, so there the claim's reset does
happen.) -/
theorem blockedCount_reset_rules (resolve : String → String) (w : Nat)
    (fetched : Int → FetchResult) (s : Session) (start : Int)
    (hw : 1 ≤ w) (hs : start ≤ MAX_PAGE) :
    ((∀ n ∈ batchPages start w, fetched n ≠ FetchResult.blocked) →
      (schedIter resolve w fetched s start).1.blockedCount = 0)
    ∧ ((∃ n ∈ batchPages start w, fetched n = FetchResult.blocked) →
      (∃ n ∈ batchPages start w, fetched n ≠ FetchResult.blocked) →
      (schedIter resolve w fetched s start).1.blockedCount = s.blockedCount) := by
  constructor
  · intro hnone
    have hnb : ∀ r ∈ sortByPage ((batchPages start w).map
        (fun n => toBatchItem n (fetched n))), r.blocked = false := by
      intro r hr
      have hr' : r ∈ (batchPages start w).map (fun n => toBatchItem n (fetched n)) :=
        (sortByPage_perm _).mem_iff.mp hr
      obtain ⟨n, hn, rfl⟩ := List.mem_map.mp hr'
      have hne := hnone n hn
      cases hfr : fetched n with
      | ok html => rfl
      | blocked => exact absurd hfr hne
      | error => rfl
      | empty => rfl
    have hflen : ((sortByPage ((batchPages start w).map
        (fun n => toBatchItem n (fetched n)))).filter (fun r => r.blocked)).length = 0 := by
      have hfil : (sortByPage ((batchPages start w).map
          (fun n => toBatchItem n (fetched n)))).filter (fun r => r.blocked) = [] := by
        rw [List.filter_eq_nil_iff]
        intro a ha
        simp [hnb a ha]
      rw [hfil]
      rfl
    have hlen : (sortByPage ((batchPages start w).map
        (fun n => toBatchItem n (fetched n)))).length ≠ 0 := by
      rw [sortByPage, List.length_insertionSort, List.length_map]
      intro h0
      rw [List.length_eq_zero] at h0
      exact List.ne_nil_of_mem (start_mem_batchPages hw hs) h0
    have hneq : ((sortByPage ((batchPages start w).map
        (fun n => toBatchItem n (fetched n)))).filter (fun r => r.blocked)).length ≠
        (sortByPage ((batchPages start w).map
          (fun n => toBatchItem n (fetched n)))).length := by
      rw [hflen]
      exact fun h => hlen h.symm
    have hcalc : (aggregateResults resolve s ((batchPages start w).map
        (fun n => toBatchItem n (fetched n)))).1.blockedCount = 0 := by
      rw [aggregateResults, aggregateSorted_not_full resolve s _ hneq]
      simp [hflen, processResults_blockedCount]
    simp only [schedIter]
    split <;> simpa using hcalc
  · intro hsome hnot
    obtain ⟨nb, hnbm, hnbe⟩ := hsome
    obtain ⟨ng, hngm, hnge⟩ := hnot
    have hbitem : toBatchItem nb (fetched nb) ∈ sortByPage ((batchPages start w).map
        (fun n => toBatchItem n (fetched n))) := by
      rw [(sortByPage_perm _).mem_iff]
      exact List.mem_map_of_mem _ hnbm
    have hbb : (toBatchItem nb (fetched nb)).blocked = true := by
      rw [hnbe]
      rfl
    have hfne0 : ((sortByPage ((batchPages start w).map
        (fun n => toBatchItem n (fetched n)))).filter (fun r => r.blocked)).length ≠ 0 := by
      have hmemf : toBatchItem nb (fetched nb) ∈ (sortByPage ((batchPages start w).map
          (fun n => toBatchItem n (fetched n)))).filter (fun r => r.blocked) :=
        List.mem_filter.mpr ⟨hbitem, hbb⟩
      intro h0
      rw [List.length_eq_zero] at h0
      rw [h0] at hmemf
      exact absurd hmemf (List.not_mem_nil _)
    have hgitem : toBatchItem ng (fetched ng) ∈ sortByPage ((batchPages start w).map
        (fun n => toBatchItem n (fetched n))) := by
      rw [(sortByPage_perm _).mem_iff]
      exact List.mem_map_of_mem _ hngm
    have hgb : ¬ ((toBatchItem ng (fetched ng)).blocked = true) := by
      cases hfg : fetched ng with
      | ok html => simp [toBatchItem]
      | blocked => exact absurd hfg hnge
      | error => simp [toBatchItem]
      | empty => simp [toBatchItem]
    have hlt : ((sortByPage ((batchPages start w).map
        (fun n => toBatchItem n (fetched n)))).filter (fun r => r.blocked)).length <
        (sortByPage ((batchPages start w).map
          (fun n => toBatchItem n (fetched n)))).length :=
      List.length_filter_lt_length_iff_exists.mpr ⟨_, hgitem, hgb⟩
    have hcalc : (aggregateResults resolve s ((batchPages start w).map
        (fun n => toBatchItem n (fetched n)))).1.blockedCount = s.blockedCount := by
      rw [aggregateResults, aggregateSorted_not_full resolve s _ (ne_of_lt hlt)]
      simp [hfne0, processResults_blockedCount]
    simp only [schedIter]
    split <;> simpa using hcalc

/-- Witness for C5 (amended): a batch with no blocked result resets the
counter from 2 to 0. -/
theorem blockedCount_reset_rules_witness :
    (∀ n ∈ batchPages 1 1, (fun _ : Int => FetchResult.ok "x") n ≠ FetchResult.blocked)
    ∧ (schedIter (fun u => u) 1 (fun _ => FetchResult.ok "x")
        { sessInit with blockedCount := 2 } 1).1.blockedCount = 0 :=
  ⟨fun n _ => (by decide : FetchResult.ok "x" ≠ FetchResult.blocked),
   (blockedCount_reset_rules (fun u => u) 1 (fun _ => FetchResult.ok "x")
      { sessInit with blockedCount := 2 } 1 (by decide) (by decide)).1
     (fun n _ => (by decide : FetchResult.ok "x" ≠ FetchResult.blocked))⟩

/-- Claim C8: batch aggregation is invariant under the completion order of
the concurrent fetches — for any permutation `l'` of a batch `l` whose page
numbers are strictly ascending (as built by `batchPages`), aggregating `l'`
yields exactly the session obtained from the ascending order, because the
scheduler sorts the results by page number before folding them. -/
theorem aggregate_order_invariant (resolve : String → String) (s : Session)
    {l l' : List BatchItem}
    (hasc : List.Pairwise (fun a b => a.pageNumber < b.pageNumber) l)
    (hperm : List.Perm l' l) :
    aggregateResults resolve s l' = aggregateResults resolve s l
    ∧ sortByPage l = l := by
  have h1 : sortByPage l' = l := sortByPage_eq_of_perm hasc hperm
  have h2 : sortByPage l = l := sortByPage_eq_of_perm hasc (List.Perm.refl l)
  exact ⟨by rw [aggregateResults, aggregateResults, h1, h2], h2⟩

/-- Witness for C8: the two orders of a two-page batch aggregate to the
same session. -/
theorem aggregate_order_invariant_witness :
    List.Pairwise (fun a b : BatchItem => a.pageNumber < b.pageNumber)
      [⟨5, ["u"], false⟩, ⟨6, [], false⟩]
    ∧ List.Perm [(⟨6, [], false⟩ : BatchItem), ⟨5, ["u"], false⟩]
        [⟨5, ["u"], false⟩, ⟨6, [], false⟩]
    ∧ aggregateResults (fun u => u) sessInit
        [⟨6, [], false⟩, ⟨5, ["u"], false⟩] =
      aggregateResults (fun u => u) sessInit
        [⟨5, ["u"], false⟩, ⟨6, [], false⟩] :=
  ⟨by decide, List.Perm.swap _ _ _,
   (aggregate_order_invariant (fun u => u) sessInit (by decide)
      (List.Perm.swap _ _ _)).1⟩

/-- Claim C7: link admission is idempotent — adding a URL already in the
set leaves the whole session (and hence the persisted file) unchanged, and
two adds of a fresh URL grow the set by exactly one; admission preserves
the set/list correspondence and its duplicate-freedom, so the persisted
store never holds two identical URLs; loading always produces a
duplicate-free list; and writing a duplicate-free list of non-empty,
newline-free, trim-invariant URLs then re-loading it reproduces exactly the
in-memory list. -/
theorem linkStore_idempotent_roundtrip :
    (∀ s u, u ∈ s.uniqueLinks → addLink s u = s)
    ∧ (∀ s u, u ∉ s.uniqueLinks →
        (addLink (addLink s u) u).uniqueLinks.length = s.uniqueLinks.length + 1)
    ∧ (∀ s u, s.uniqueLinks = s.allLinks → s.allLinks.Nodup →
        (addLink s u).uniqueLinks = (addLink s u).allLinks ∧ (addLink s u).allLinks.Nodup)
    ∧ (∀ contents, (readExistingLinks contents).Nodup)
    ∧ (∀ links : List String, links ≠ [] → links.Nodup →
        (∀ u ∈ links, u ≠ "" ∧ '\n' ∉ u.toList ∧ trimChars u.toList = u.toList) →
        readExistingLinks (writeLinks links) = links) := by
  refine ⟨?_, ?_, ?_, ?_, ?_⟩
  · intro s u h
    rw [addLink, if_pos h]
  · intro s u h
    have h1 : addLink s u = { s with
        uniqueLinks := s.uniqueLinks ++ [u]
        allLinks := s.allLinks ++ [u]
        newLinksThisRun := s.newLinksThisRun + 1 } := by
      rw [addLink, if_neg h]
    rw [h1, addLink, if_pos (by simp)]
    simp
  · intro s u he hnd
    rw [addLink]
    split
    · exact ⟨he, hnd⟩
    · case isFalse h =>
      constructor
      · simp only
        rw [he]
      · simp only
        rw [List.nodup_append]
        refine ⟨hnd, List.nodup_singleton u, ?_⟩
        intro a ha hb
        rw [List.mem_singleton] at hb
        subst hb
        exact h (by rw [he]; exact ha)
  · intro contents
    exact (dedupeGo_nodup _ []).1
  · intro links hne hnd hclean
    have hlen : 0 < links.length := List.length_pos.mpr hne
    rw [writeLinks, if_pos hlen, readExistingLinks]
    have h0 : (String.mk (joinLines (links.map String.toList) ++ ['\n'])).toList =
        joinLines (links.map String.toList) ++ ['\n'] := rfl
    rw [h0, splitLines_joinLines (links.map String.toList) (by simpa using hne)
      (by intro l hl
          obtain ⟨u, hu, rfl⟩ := List.mem_map.mp hl
          exact (hclean u hu).2.1)]
    rw [List.map_append, List.map_map]
    have hmap : links.map ((fun l => String.mk (trimChars l)) ∘ String.toList) = links := by
      refine map_eq_self_of_forall _ links ?_
      intro u hu
      show String.mk (trimChars u.toList) = u
      rw [(hclean u hu).2.2]
      rfl
    rw [hmap]
    have hempty : ([([] : List Char)]).map (fun l => String.mk (trimChars l)) = [""] := rfl
    rw [hempty, List.filter_append]
    have hfe : List.filter (fun l => l != "") [""] = [] := rfl
    rw [hfe, List.append_nil]
    have hfl : List.filter (fun l => l != "") links = links := by
      rw [List.filter_eq_self]
      intro u hu
      simpa using (hclean u hu).1
    rw [hfl, dedupeKeepFirst]
    exact dedupeGo_eq_self links [] hnd (by simp)

/-- Witness for C7: a fresh URL admitted twice grows the set by one, and a
two-URL list round-trips through the link file. -/
theorem linkStore_idempotent_roundtrip_witness :
    ("u" : String) ∉ sessInit.uniqueLinks
    ∧ (addLink (addLink sessInit "u") "u").uniqueLinks.length =
        sessInit.uniqueLinks.length + 1
    ∧ readExistingLinks (writeLinks ["a", "b"]) = ["a", "b"] :=
  ⟨by decide, linkStore_idempotent_roundtrip.2.1 sessInit "u" (by decide),
   linkStore_idempotent_roundtrip.2.2.2.2 ["a", "b"] (by decide) (by decide) (by decide)⟩
